import Mathlib

/-!
Verification development for the `git-aicommit` command-line tool.

The tool stages pending changes, extracts the staged diff, asks an Ollama
model for a structured commit message, walks the user through an interactive
accept/retry/switch-model loop, and finally either creates the commit or
writes the message to a hand-off file for lazygit.  The current program is
`src/main.mts` (class `CommitBuilder`); an earlier variant of the same
program, kept in the repository, implements an additional edit/refine action
and is embedded separately in the `legacy` namespace.

The embedding is a shallow one: the mutable `CommitBuilder` object becomes an
explicit state record (`RunState`), subprocess and prompt interactions become
explicit environments (`Env`) and an event trace (`Event`), and the git index
is modelled by a `GitState` record.  Exceptions are modelled with `Except`
and a dedicated loop-result type.
-/

namespace GitAicommit

/-! ## Small string utilities (used by theorems to talk about substrings) -/

/-- Whether `pat` occurs at the front of `s` (character lists). -/
def occursAtFront : List Char → List Char → Bool
  | [], _ => true
  | _ :: _, [] => false
  | p :: ps, c :: cs => p == c && occursAtFront ps cs

/-- Whether `pat` occurs anywhere inside `s` (character lists). -/
def occursIn (pat : List Char) : List Char → Bool
  | [] => pat.isEmpty
  | c :: rest => occursAtFront pat (c :: rest) || occursIn pat rest

/-- Whether string `s` contains `pat` as a substring. -/
def strContains (s pat : String) : Bool :=
  occursIn pat.data s.data

/-! ## JSON values and the response decoder

`generateCommitMessage` does `v.parse(CommitMessage, JSON.parse(content))`:
stage one parses the response body as a generic JSON value, stage two
validates it against the valibot schema `v.object \x7b commitTitle: v.string(),
commitDescription: v.string() \x7d`. -/

/-- Generic JSON values, the result of a successful `JSON.parse`. -/
inductive Json where
  | null
  | bool (b : Bool)
  | num (n : Int)
  | str (s : String)
  | arr (elems : List Json)
  | obj (fields : List (String × Json))

/-- The content of one model response: either it parses as a JSON value, or
`JSON.parse` throws on it. -/
inductive Content where
  | json (j : Json)
  | invalid

/-- The valibot schema `CommitMessage`: both fields are required strings. -/
structure CommitMessage where
  commitTitle : String
  commitDescription : String
deriving DecidableEq

/-- The two ways decoding a model response can fail: the body is not valid
JSON, or it does not match the schema. -/
inductive DecodeError where
  | jsonParse
  | schema
deriving DecidableEq

/-- Field lookup in a JSON object.  JavaScript keeps the last occurrence of a
duplicated key, so the last binding wins. -/
def getField (fields : List (String × Json)) (key : String) : Option Json :=
  ((fields.filter (fun f => f.1 == key)).getLast?).map (fun f => f.2)

/-- Stage two of decoding: valibot validation of a parsed JSON value against
the `CommitMessage` schema.  Extra keys are ignored (valibot `object`
semantics); a missing or non-string required field fails. -/
def parseCommitMessage (j : Json) : Except DecodeError CommitMessage :=
  match j with
  | .obj fields =>
    match getField fields "commitTitle", getField fields "commitDescription" with
    | some (.str t), some (.str d) => .ok { commitTitle := t, commitDescription := d }
    | _, _ => .error .schema
  | _ => .error .schema

/-- Both decoding stages: `JSON.parse` then schema validation. -/
def decodeContent (c : Content) : Except DecodeError CommitMessage :=
  match c with
  | .invalid => .error .jsonParse
  | .json j => parseCommitMessage j

/-- Whether a JSON value has both required fields present as strings (the
successful shape of `parseCommitMessage`). -/
def hasBothStringFields (j : Json) : Bool :=
  match j with
  | .obj fields =>
    (match getField fields "commitTitle" with
     | some (.str _) => true
     | _ => false)
    &&
    (match getField fields "commitDescription" with
     | some (.str _) => true
     | _ => false)
  | _ => false

/-! ## The git state model

The index, HEAD and working tree are modelled as flat file listings.
`log` records the commit messages in history, most recent first; `untracked`
holds files on disk that git does not yet know about. -/

/-- A flat file listing: path/content pairs. -/
abbrev Tree := List (String × String)

/-- The observable state of the git repository. -/
structure GitState where
  head : Tree
  log : List String
  index : Tree
  worktree : Tree
  untracked : Tree
deriving DecidableEq

/-- Model of `git status --porcelain` having empty (trimmed) output: nothing
staged, no tracked modifications, no untracked files. -/
def statusClean (s : GitState) : Bool :=
  s.index == s.head && s.worktree == s.index && s.untracked == []

/-- Model of `git ls-files --others --exclude-standard . | xargs git add
--intent-to-add`: untracked paths are registered in the index with empty
content, and the files become tracked on disk. -/
def gitIntentToAdd (s : GitState) : GitState :=
  { s with
    index := s.index ++ s.untracked.map (fun f => (f.1, ""))
    worktree := s.worktree ++ s.untracked
    untracked := [] }

/-- Model of `git add .`: the index mirrors everything on disk. -/
def gitAddAll (s : GitState) : GitState :=
  { s with
    index := s.worktree ++ s.untracked
    worktree := s.worktree ++ s.untracked
    untracked := [] }

/-- Model of `git commit -F -` fed `message` on stdin: HEAD becomes the
index, and the message is recorded verbatim at the head of the log. -/
def gitCommit (message : String) (s : GitState) : GitState :=
  { s with head := s.index, log := message :: s.log }

/-- Model of the interactive `git commit --amend`: the user replaces the
message of the commit just created. -/
def gitAmend (newMessage : String) (s : GitState) : GitState :=
  { s with log := newMessage :: s.log.tail }

/-- Model of `git reset HEAD`: the index becomes HEAD's tree. -/
def gitReset (s : GitState) : GitState :=
  { s with index := s.head }

/-- Model of the external `git diff -U10 --cached` boundary: an abstract
(trimmed) rendering of the HEAD and index trees. -/
def renderTree (t : Tree) : String :=
  String.intercalate ";" (t.map (fun f => f.1 ++ "=" ++ f.2))

/-- The staged diff text handed to the prompt builder. -/
def diffCached (s : GitState) : String :=
  "diff --cached " ++ renderTree s.head ++ " -> " ++ renderTree s.index

/-! ## Arguments, environment, events -/

/-- The parsed command-line arguments (`parseArgs` in `src/main.mts`). -/
structure Args where
  interactive : Bool
  model : Option String
  wip : Bool
  lazygit : Bool
  path : List String
deriving DecidableEq

/-- Everything the outside world feeds into one invocation: the repository
root reported by `git rev-parse --show-toplevel`, the model identifiers the
user picks at each `select` prompt, the chat responses in order, the keys the
user answers at each `expand` prompt, the index resulting from an interactive
`git add . -p` session, and the message the user leaves in the interactive
amend editor. -/
structure Env where
  gitRoot : String
  selections : List String
  responses : List Content
  answers : List String
  interactiveIndex : Tree
  amendMsg : String

/-- Observable external actions of one invocation, in order. -/
inductive Event where
  | cmdRevParse
  | cmdStatus
  | cmdIntentToAdd
  | cmdAddInteractive
  | cmdAddAll
  | cmdDiff
  | modelList
  | promptSelect
  | promptExpand
  | promptAck
  | modelChat (model : String) (content : String)
  | cmdCommit (message : String)
  | cmdAmend
  | writeHandoff (file : String) (content : String)
  | cmdReset
deriving DecidableEq

/-- Events that mutate git state (index, HEAD or history). -/
def Event.mutatesGit : Event → Bool
  | .cmdIntentToAdd | .cmdAddInteractive | .cmdAddAll
  | .cmdCommit _ | .cmdAmend | .cmdReset => true
  | _ => false

/-- Staging commands (`git add` family). -/
def Event.isStagingCmd : Event → Bool
  | .cmdIntentToAdd | .cmdAddInteractive | .cmdAddAll => true
  | _ => false

/-- Calls to the model service (listing or chat). -/
def Event.isModelCall : Event → Bool
  | .modelList | .modelChat _ _ => true
  | _ => false

/-- Chat (generation) calls only. -/
def Event.isChat : Event → Bool
  | .modelChat _ _ => true
  | _ => false

/-- Number of generation calls recorded in a trace. -/
def chatCount (tr : List Event) : Nat :=
  tr.countP Event.isChat

/-- `true` when no generation call precedes the first model-selection prompt
in the trace (i.e. the first of the two kinds of event to occur, if any, is
the selection prompt). -/
def promptShownBeforeChat : List Event → Bool
  | [] => true
  | .modelChat _ _ :: _ => false
  | .promptSelect :: _ => true
  | _ :: rest => promptShownBeforeChat rest

/-! ## The workflow state -/

/-- The mutable state of `CommitBuilder.run`, plus the still-unconsumed
response and selection streams and the event trace. -/
structure RunState where
  git : GitState
  handoff : Option String
  model : String
  prompt : String
  message : String
  responses : List Content
  selections : List String
  trace : List Event

/-- Append one event to the trace. -/
def pushEvent (st : RunState) (e : Event) : RunState :=
  { st with trace := st.trace ++ [e] }

/-- How one generation attempt can fail: the decode threw
(`GenerationDecodeError`), or the chat call never returns. -/
inductive GenFail where
  | decode
  | hung
deriving DecidableEq

/-- Result of `CommitBuilder.run`: a returned exit code, an uncaught
exception from the decoder, or an interaction that blocks forever. -/
inductive LoopResult where
  | ret (code : Nat) (st : RunState)
  | decodeErr (st : RunState)
  | hung (st : RunState)

/-- The state carried by a loop result. -/
def LoopResult.state : LoopResult → RunState
  | .ret _ st => st
  | .decodeErr st => st
  | .hung st => st

/-! ## The embedded program (src/main.mts) -/

/-- The prompt template of `CommitBuilder.setPrompt`, with the staged diff
interpolated (the template literal's indentation is kept verbatim). -/
def mainPrompt (diff : String) : String :=
  "\n            Write a git commit message with a title and description based on the\n            following changes. If there are multiple seemingly unrelated changes,\n            just write \"multiple changes\". Do not mention \"refactoring\".\n\n            If the description does not add any new information leave the description blank.\n\n            The git diff:\n\n            " ++ diff ++ "\n        "

/-- `CommitBuilder.selectModel`: the value of `this.model` afterwards.  The
source first assigns `this.args.model ?? ""` and immediately overwrites it
with the interactive choice, so the supplied `--model` value only ever serves
as the `default` highlighted entry of the prompt. -/
def selectModelResult (args : Args) (choice : String) : String :=
  let _dead := args.model.getD ""
  choice

/-- The path `path.join(gitRoot, ".git", "LAZYGIT_PENDING_COMMIT")`. -/
def handoffPath (gitRoot : String) : String :=
  gitRoot ++ "/.git/LAZYGIT_PENDING_COMMIT"

/-- `CommitBuilder.generateCommitMessage`: consume one chat response, decode
it, and on success store the fully composed message (WIP marker on the title
and `[skip ci]` suffix when `--wip`, and the attribution footer always).  A
decode failure rethrows; an empty response stream models a chat call that
never returns. -/
def generateCommitMessage (args : Args) (st : RunState) :
    Except (GenFail × RunState) RunState :=
  match st.responses with
  | [] => .error (.hung, st)
  | c :: rest =>
    let st := { st with
      responses := rest
      trace := st.trace ++ [.modelChat st.model st.prompt] }
    match decodeContent c with
    | .error _ => .error (.decode, st)
    | .ok cm =>
      let cm :=
        if args.wip then { cm with commitTitle := "WIP: " ++ cm.commitTitle } else cm
      let message :=
        cm.commitTitle ++ "\n\n" ++ cm.commitDescription ++ "\n\nCommit message by " ++ st.model
      let message := if args.wip then message ++ "\n[skip ci]" else message
      .ok { st with message := message }

/-- The accept branch after the review loop: write the hand-off file in
lazygit mode, otherwise commit (and amend when the answer was `"a"`). -/
def dispatch (args : Args) (gitRoot amendMsg answer : String) (st : RunState) : RunState :=
  if args.lazygit then
    { st with
      handoff := some st.message
      trace := st.trace ++ [.writeHandoff (handoffPath gitRoot) st.message] }
  else
    let st := { st with
      git := gitCommit st.message st.git
      trace := st.trace ++ [.cmdCommit st.message] }
    if answer = "a" then
      { st with git := gitAmend amendMsg st.git, trace := st.trace ++ [.cmdAmend] }
    else st

/-- The `while (true)` review loop of `CommitBuilder.run`.  Each iteration
shows the message and asks the expand prompt (consuming one answer); `"r"`
regenerates, `"m"` reselects the model and regenerates, `"s"` prints the
prompt and waits for an acknowledgement (consuming one more answer), `"a"`
and `"y"` proceed to the dispatch, and anything else aborts with code 1. -/
def reviewLoop (args : Args) (gitRoot amendMsg : String) :
    RunState → List String → LoopResult
  | st, [] => .hung st
  | st, a :: rest =>
    let st := pushEvent st .promptExpand
    if a = "r" then
      match generateCommitMessage args st with
      | .ok st' => reviewLoop args gitRoot amendMsg st' rest
      | .error (.decode, st') => .decodeErr st'
      | .error (.hung, st') => .hung st'
    else if a = "m" then
      match st.selections with
      | [] => .hung (pushEvent st .modelList)
      | sel :: sels =>
        let st := { st with
          model := selectModelResult args sel
          selections := sels
          trace := st.trace ++ [.modelList, .promptSelect] }
        match generateCommitMessage args st with
        | .ok st' => reviewLoop args gitRoot amendMsg st' rest
        | .error (.decode, st') => .decodeErr st'
        | .error (.hung, st') => .hung st'
    else if a = "s" then
      let st := pushEvent st .promptAck
      match rest with
      | [] => .hung st
      | _ :: rest' => reviewLoop args gitRoot amendMsg st rest'
    else if a = "a" ∨ a = "y" then
      .ret 0 (dispatch args gitRoot amendMsg a st)
    else
      .ret 1 st

/-- The part of `CommitBuilder.run` after the first model selection: the
initial generation followed by the review loop. -/
def afterSelect (args : Args) (env : Env) (st : RunState) : LoopResult :=
  match generateCommitMessage args st with
  | .ok st' => reviewLoop args env.gitRoot env.amendMsg st' env.answers
  | .error (.decode, st') => .decodeErr st'
  | .error (.hung, st') => .hung st'

/-- The state at the start of `CommitBuilder.run`, after root discovery and
the status query. -/
def initState (env : Env) (git0 : GitState) (handoff0 : Option String) : RunState :=
  { git := git0, handoff := handoff0, model := "", prompt := "", message := ""
    responses := env.responses, selections := env.selections
    trace := [.cmdRevParse, .cmdStatus] }

/-- The staging block of `CommitBuilder.run`: skipped entirely in lazygit
mode; otherwise intent-to-add registration followed by either the
interactive staging session or `git add .`. -/
def stageChanges (args : Args) (env : Env) (st : RunState) : RunState :=
  if !args.lazygit then
    let st1 : RunState :=
      { st with git := gitIntentToAdd st.git, trace := st.trace ++ [.cmdIntentToAdd] }
    if args.interactive then
      { st1 with
        git := { st1.git with index := env.interactiveIndex }
        trace := st1.trace ++ [.cmdAddInteractive] }
    else
      { st1 with git := gitAddAll st1.git, trace := st1.trace ++ [.cmdAddAll] }
  else st

/-- `CommitBuilder.setPrompt`: extract the staged diff and rebuild the
prompt. -/
def setPromptStep (st : RunState) : RunState :=
  { st with
    prompt := mainPrompt (diffCached st.git)
    trace := st.trace ++ [.cmdDiff] }

/-- `CommitBuilder.run`: root discovery, status check and early exit,
staging (skipped entirely in lazygit mode), prompt construction, first model
selection (`this.model` starts out empty), first generation, review loop. -/
def runBuilder (args : Args) (env : Env) (git0 : GitState) (handoff0 : Option String) :
    LoopResult :=
  let st := initState env git0 handoff0
  if statusClean git0 then
    .ret 1 st
  else
    let st := setPromptStep (stageChanges args env st)
    if st.model = "" then
      match st.selections with
      | [] => .hung { st with trace := st.trace ++ [.modelList] }
      | sel :: sels =>
        afterSelect args env
          { st with
            model := selectModelResult args sel
            selections := sels
            trace := st.trace ++ [.modelList, .promptSelect] }
    else
      afterSelect args env st

/-- How one invocation of the process ends.  `crashed` is an uncaught
exception escaping the top-level `try`/`finally`; Node then terminates the
process with status 1. -/
inductive Outcome where
  | exited (code : Nat)
  | crashed
  | hung
deriving DecidableEq

/-- The operating-system exit status of an outcome, when the process
terminates at all. -/
def Outcome.exitStatus : Outcome → Option Nat
  | .exited c => some c
  | .crashed => some 1
  | .hung => none

/-- The observable result of one whole invocation. -/
structure Invocation where
  outcome : Outcome
  git : GitState
  handoff : Option String
  trace : List Event

/-- The whole program: `builder.run()` wrapped in the top-level
`try`/`finally` that runs `git reset HEAD` unless `--lazygit` was given, and
then `process.exit(code)`.  A blocked interaction never reaches the
`finally`. -/
def gitAicommit (args : Args) (env : Env) (git0 : GitState) (handoff0 : Option String) :
    Invocation :=
  match runBuilder args env git0 handoff0 with
  | .ret code st =>
    if args.lazygit then
      { outcome := .exited code, git := st.git, handoff := st.handoff, trace := st.trace }
    else
      { outcome := .exited code, git := gitReset st.git, handoff := st.handoff
        trace := st.trace ++ [.cmdReset] }
  | .decodeErr st =>
    if args.lazygit then
      { outcome := .crashed, git := st.git, handoff := st.handoff, trace := st.trace }
    else
      { outcome := .crashed, git := gitReset st.git, handoff := st.handoff
        trace := st.trace ++ [.cmdReset] }
  | .hung st =>
    { outcome := .hung, git := st.git, handoff := st.handoff, trace := st.trace }

/-! ## The earlier program variant with the edit/refine action

The repository also contains the earlier incarnation of the tool (a plain
`main()` with an `ask`-driven `y/a/n/r/e/?` loop).  It is the only variant
implementing the edit/refine action, so the refine claims are settled against
it.  Notable structure of the source: `refine` is a mutable variable, but the
prompt is a `const` computed once before the loop from `refine = ""`; the
`"e"` branch assigns `refine` and never rebuilds the prompt. -/

namespace legacy

/-- The parsed arguments of the earlier variant: `model` is a plain string
defaulting to `"mistral:latest"`. -/
structure Args where
  interactive : Bool
  model : String
  wip : Bool
  lazygit : Bool
  path : List String
deriving DecidableEq

/-- The prompt template of the earlier variant, parameterized by the current
refinement text and the staged diff (indentation kept verbatim). -/
def promptOf (refine diff : String) : String :=
  "\n        Write a git commit message with a title and description based on the\n        following changes. If there are multiple seemingly unrelated changes,\n        just write \"multiple changes\". Do not mention \"refactoring\".\n        " ++ refine ++ "\n\n        The git diff:\n\n        " ++ diff ++ "\n    "

/-- The loop state of the earlier variant's `main`: the mutable `refine`
variable, the remaining responses and the prompts actually sent to each chat
call, plus the git state and the hand-off file. -/
structure LoopSt where
  refine : String
  git : GitState
  handoff : Option String
  responses : List Content
  chatPrompts : List String

/-- Result of the earlier variant's `main`: an exit code or a blocked
interaction. -/
inductive LResult where
  | code (n : Nat) (st : LoopSt)
  | hung (st : LoopSt)

/-- The state carried by a legacy result. -/
def LResult.state : LResult → LoopSt
  | .code _ st => st
  | .hung st => st

/-- The exit code of a legacy result, when it terminated. -/
def LResult.exitCode : LResult → Option Nat
  | .code n _ => some n
  | .hung _ => none

/-- The earlier variant's `while (true)` loop.  Each iteration calls
`ollama.chat` with the (never rebuilt) `prompt`; a decode failure returns 1;
then one `ask` answer is consumed: `"?"` prints the legend, `"r"` retries,
`"e"` consumes one more input line into `refine`, `"y"`/`"a"` compose the
message (WIP marker, footer, `[skip ci]`) and dispatch, else abort. -/
def loop (args : Args) (gitRoot amendMsg : String) (prompt : String) :
    LoopSt → List String → LResult
  | st, inputs =>
    match st.responses with
    | [] => .hung st
    | c :: rest =>
      let st := { st with responses := rest, chatPrompts := st.chatPrompts ++ [prompt] }
      match decodeContent c with
      | .error _ => .code 1 st
      | .ok cm =>
        match inputs with
        | [] => .hung st
        | a :: rest' =>
          if a = "?" then loop args gitRoot amendMsg prompt st rest'
          else if a = "r" then loop args gitRoot amendMsg prompt st rest'
          else if a = "e" then
            match rest' with
            | [] => .hung st
            | refineText :: rest'' =>
              loop args gitRoot amendMsg prompt { st with refine := refineText } rest''
          else if a = "a" ∨ a = "y" then
            let cm :=
              if args.wip then { cm with commitTitle := "WIP: " ++ cm.commitTitle } else cm
            let message :=
              cm.commitTitle ++ "\n\n" ++ cm.commitDescription ++ "\n\nCommit message by " ++ args.model
            let message := if args.wip then message ++ "\n[skip ci]" else message
            if args.lazygit then
              .code 0 { st with handoff := some message }
            else
              let st := { st with git := gitCommit message st.git }
              if a = "a" then .code 0 { st with git := gitAmend amendMsg st.git }
              else .code 0 st
          else .code 1 st

/-- The earlier variant's `main`: status check, staging (skipped in lazygit
mode), diff, the one-time prompt construction from `refine = ""`, then the
loop. -/
def main (args : Args) (env : Env) (git0 : GitState) (handoff0 : Option String) : LResult :=
  let st : LoopSt :=
    { refine := "", git := git0, handoff := handoff0
      responses := env.responses, chatPrompts := [] }
  if statusClean git0 then
    .code 1 st
  else
    let st : LoopSt :=
      if !args.lazygit then
        let st1 : LoopSt := { st with git := gitIntentToAdd st.git }
        if args.interactive then
          { st1 with git := { st1.git with index := env.interactiveIndex } }
        else
          { st1 with git := gitAddAll st1.git }
      else st
    let diff := diffCached st.git
    let refine := ""
    let prompt := promptOf refine diff
    loop args env.gitRoot env.amendMsg prompt st env.answers

end legacy

/-! ## Sample inputs for witnesses and counterexamples -/

/-- A well-formed model response carrying both required string fields. -/
def goodContent (t d : String) : Content :=
  .json (.obj [("commitTitle", .str t), ("commitDescription", .str d)])

/-- Default flags: no interactive staging, no `--model`, no `--wip`, no
`--lazygit`. -/
def sampleArgs : Args :=
  { interactive := false, model := none, wip := false, lazygit := false, path := [] }

/-- An environment whose user aborts at the first review prompt. -/
def sampleEnv : Env :=
  { gitRoot := "/repo", selections := ["m1"], responses := [goodContent "t" "d"]
    answers := ["n"], interactiveIndex := [], amendMsg := "amended" }

/-- A repository where the caller had already staged a change: the index
differs from HEAD while the working tree matches the index. -/
def stagedGit : GitState :=
  { head := [], log := [], index := [("a", "1")], worktree := [("a", "1")], untracked := [] }

/-- A repository with an unstaged working-tree change and a clean index. -/
def dirtyGit : GitState :=
  { head := [], log := [], index := [], worktree := [("foo", "bar")], untracked := [] }

/-- A repository with no pending changes at all. -/
def quietGit : GitState :=
  { head := [("a", "1")], log := [], index := [("a", "1")], worktree := [("a", "1")]
    untracked := [] }

/-! ## Frame lemmas for the embedded program -/

@[simp] theorem stageChanges_selections (args : Args) (env : Env) (st : RunState) :
    (stageChanges args env st).selections = st.selections := by
  unfold stageChanges
  split
  · split <;> rfl
  · rfl

@[simp] theorem stageChanges_responses (args : Args) (env : Env) (st : RunState) :
    (stageChanges args env st).responses = st.responses := by
  unfold stageChanges
  split
  · split <;> rfl
  · rfl

@[simp] theorem stageChanges_model (args : Args) (env : Env) (st : RunState) :
    (stageChanges args env st).model = st.model := by
  unfold stageChanges
  split
  · split <;> rfl
  · rfl

@[simp] theorem stageChanges_handoff (args : Args) (env : Env) (st : RunState) :
    (stageChanges args env st).handoff = st.handoff := by
  unfold stageChanges
  split
  · split <;> rfl
  · rfl

@[simp] theorem stageChanges_head (args : Args) (env : Env) (st : RunState) :
    (stageChanges args env st).git.head = st.git.head := by
  unfold stageChanges
  split
  · split <;> rfl
  · rfl

@[simp] theorem stageChanges_log (args : Args) (env : Env) (st : RunState) :
    (stageChanges args env st).git.log = st.git.log := by
  unfold stageChanges
  split
  · split <;> rfl
  · rfl

theorem stageChanges_lazygit (args : Args) (env : Env) (st : RunState)
    (h : args.lazygit = true) : stageChanges args env st = st := by
  unfold stageChanges
  rw [h]
  rfl

@[simp] theorem setPromptStep_git (st : RunState) : (setPromptStep st).git = st.git := rfl

@[simp] theorem setPromptStep_selections (st : RunState) :
    (setPromptStep st).selections = st.selections := rfl

@[simp] theorem setPromptStep_responses (st : RunState) :
    (setPromptStep st).responses = st.responses := rfl

@[simp] theorem setPromptStep_model (st : RunState) :
    (setPromptStep st).model = st.model := rfl

@[simp] theorem setPromptStep_handoff (st : RunState) :
    (setPromptStep st).handoff = st.handoff := rfl

@[simp] theorem setPromptStep_trace (st : RunState) :
    (setPromptStep st).trace = st.trace ++ [Event.cmdDiff] := rfl

/-- Everything `generateCommitMessage` preserves on success, and the exact
trace growth. -/
theorem generate_ok_frame (args : Args) (st r : RunState)
    (h : generateCommitMessage args st = .ok r) :
    r.git = st.git ∧ r.handoff = st.handoff ∧ r.model = st.model ∧
    r.prompt = st.prompt ∧ r.selections = st.selections ∧
    r.trace = st.trace ++ [Event.modelChat st.model st.prompt] := by
  unfold generateCommitMessage at h
  split at h
  · exact absurd h (by simp)
  · split at h
    · exact absurd h (by simp)
    · rw [Except.ok.injEq] at h
      subst h
      simp

@[simp] theorem pushEvent_git (st : RunState) (e : Event) : (pushEvent st e).git = st.git := rfl

@[simp] theorem pushEvent_handoff (st : RunState) (e : Event) :
    (pushEvent st e).handoff = st.handoff := rfl

@[simp] theorem pushEvent_model (st : RunState) (e : Event) :
    (pushEvent st e).model = st.model := rfl

@[simp] theorem pushEvent_selections (st : RunState) (e : Event) :
    (pushEvent st e).selections = st.selections := rfl

@[simp] theorem pushEvent_responses (st : RunState) (e : Event) :
    (pushEvent st e).responses = st.responses := rfl

@[simp] theorem pushEvent_trace (st : RunState) (e : Event) :
    (pushEvent st e).trace = st.trace ++ [e] := rfl

@[simp] theorem pushEvent_message (st : RunState) (e : Event) :
    (pushEvent st e).message = st.message := rfl

/-- Everything `generateCommitMessage` preserves on failure, and the two
possible trace growths (none when the chat call blocks, one chat event when
the decode throws). -/
theorem generate_err_frame (args : Args) (st s : RunState) (f : GenFail)
    (h : generateCommitMessage args st = .error (f, s)) :
    s.git = st.git ∧ s.handoff = st.handoff ∧ s.model = st.model ∧
    (s.trace = st.trace ∨ s.trace = st.trace ++ [Event.modelChat st.model st.prompt]) := by
  unfold generateCommitMessage at h
  split at h
  · rw [Except.error.injEq, Prod.mk.injEq] at h
    obtain ⟨-, h⟩ := h
    subst h
    simp
  · split at h
    · rw [Except.error.injEq, Prod.mk.injEq] at h
      obtain ⟨-, h⟩ := h
      subst h
      simp
    · exact absurd h (by simp)

/-- On every outcome other than an accepted commit, the review loop leaves
the git state untouched: the only git mutation on the loop's paths sits in
the dispatch reached by accept, which returns exit code 0. -/
theorem reviewLoop_frame (args : Args) (gr am : String) :
    ∀ n (answers : List String) (st : RunState), answers.length ≤ n →
      ∀ r, reviewLoop args gr am st answers = r → (∀ s, r ≠ .ret 0 s) →
        r.state.git = st.git := by
  intro n
  induction n with
  | zero =>
    intro answers st hlen r hr hne
    have hnil : answers = [] := List.eq_nil_of_length_eq_zero (Nat.le_zero.mp hlen)
    subst hnil
    rw [reviewLoop] at hr
    subst hr
    rfl
  | succ n ih =>
    intro answers st hlen r hr hne
    match answers with
    | [] =>
      rw [reviewLoop] at hr
      subst hr
      rfl
    | a :: rest =>
      have hrest : rest.length ≤ n := by
        simpa [Nat.succ_le_succ_iff] using hlen
      rw [reviewLoop] at hr
      split at hr
      · -- a = "r"
        split at hr
        next st' hgen =>
          have := ih rest st' hrest r hr hne
          rw [this, (generate_ok_frame args _ st' hgen).1, pushEvent_git]
        next st' hgen =>
          subst hr
          rw [LoopResult.state, (generate_err_frame args _ st' _ hgen).1, pushEvent_git]
        next st' hgen =>
          subst hr
          rw [LoopResult.state, (generate_err_frame args _ st' _ hgen).1, pushEvent_git]
      · split at hr
        · -- a = "m"
          split at hr
          · subst hr
            rfl
          · dsimp only [] at hr
            split at hr
            next st' hgen =>
              have := ih rest st' hrest r hr hne
              rw [this, (generate_ok_frame args _ st' hgen).1]
              rfl
            next st' hgen =>
              subst hr
              rw [LoopResult.state, (generate_err_frame args _ st' _ hgen).1]
              rfl
            next st' hgen =>
              subst hr
              rw [LoopResult.state, (generate_err_frame args _ st' _ hgen).1]
              rfl
        · split at hr
          · -- a = "s"
            split at hr
            · subst hr
              rfl
            next b rest' =>
              have hrest' : rest'.length ≤ n := by
                simp only [List.length_cons] at hrest
                omega
              have := ih rest' _ hrest' r hr hne
              rw [this]
              rfl
          · split at hr
            · -- accept
              exact absurd hr.symm (hne _)
            · -- abort
              subst hr
              rfl

/-- A trace with no git-mutating event. -/
def cleanTrace (tr : List Event) : Bool :=
  tr.all (fun e => !e.mutatesGit)

@[simp] theorem cleanTrace_append (t1 t2 : List Event) :
    cleanTrace (t1 ++ t2) = (cleanTrace t1 && cleanTrace t2) := by
  simp [cleanTrace]

/-- In hand-off mode the dispatch only writes the hand-off file. -/
theorem dispatch_lazygit (args : Args) (gr am a : String) (st : RunState)
    (hlz : args.lazygit = true) :
    dispatch args gr am a st =
      { st with
        handoff := some st.message
        trace := st.trace ++ [Event.writeHandoff (handoffPath gr) st.message] } := by
  unfold dispatch
  rw [hlz]
  rfl

/-- Appending a mutation-free extension keeps a trace clean. -/
theorem cleanTrace_extend (tr ext : List Event) (h : cleanTrace tr = true)
    (he : cleanTrace ext = true) : cleanTrace (tr ++ ext) = true := by
  rw [cleanTrace_append, h, he]
  rfl

/-- In hand-off mode the review loop never mutates the git state and never
records a git-mutating event. -/
theorem reviewLoop_lazygit_frame (args : Args) (gr am : String)
    (hlz : args.lazygit = true) :
    ∀ n (answers : List String) (st : RunState), answers.length ≤ n →
      ∀ r, reviewLoop args gr am st answers = r →
        r.state.git = st.git ∧
        (cleanTrace st.trace = true → cleanTrace r.state.trace = true) := by
  intro n
  induction n with
  | zero =>
    intro answers st hlen r hr
    have hnil : answers = [] := List.eq_nil_of_length_eq_zero (Nat.le_zero.mp hlen)
    subst hnil
    rw [reviewLoop] at hr
    subst hr
    exact ⟨rfl, fun h => h⟩
  | succ n ih =>
    intro answers st hlen r hr
    match answers with
    | [] =>
      rw [reviewLoop] at hr
      subst hr
      exact ⟨rfl, fun h => h⟩
    | a :: rest =>
      have hrest : rest.length ≤ n := by
        simpa [Nat.succ_le_succ_iff] using hlen
      rw [reviewLoop] at hr
      split at hr
      · -- a = "r"
        split at hr
        next st' hgen =>
          obtain ⟨hg, -, -, -, -, ht⟩ := generate_ok_frame args _ st' hgen
          obtain ⟨ihg, iht⟩ := ih rest st' hrest r hr
          refine ⟨by rw [ihg, hg, pushEvent_git], fun hc => ?_⟩
          refine iht ?_
          rw [ht, pushEvent_trace, List.append_assoc]
          exact cleanTrace_extend _ _ hc rfl
        next st' hgen =>
          obtain ⟨hg, -, -, ht⟩ := generate_err_frame args _ st' _ hgen
          subst hr
          refine ⟨by rw [LoopResult.state, hg, pushEvent_git], fun hc => ?_⟩
          rw [LoopResult.state]
          rcases ht with h | h <;> rw [h, pushEvent_trace]
          · exact cleanTrace_extend _ _ hc rfl
          · rw [List.append_assoc]
            exact cleanTrace_extend _ _ hc rfl
        next st' hgen =>
          obtain ⟨hg, -, -, ht⟩ := generate_err_frame args _ st' _ hgen
          subst hr
          refine ⟨by rw [LoopResult.state, hg, pushEvent_git], fun hc => ?_⟩
          rw [LoopResult.state]
          rcases ht with h | h <;> rw [h, pushEvent_trace]
          · exact cleanTrace_extend _ _ hc rfl
          · rw [List.append_assoc]
            exact cleanTrace_extend _ _ hc rfl
      · split at hr
        · -- a = "m"
          split at hr
          · subst hr
            refine ⟨rfl, fun hc => ?_⟩
            rw [LoopResult.state, pushEvent_trace, pushEvent_trace, List.append_assoc]
            exact cleanTrace_extend _ _ hc rfl
          · dsimp only at hr
            split at hr
            next st' hgen =>
              obtain ⟨hg, -, -, -, -, ht⟩ := generate_ok_frame args _ st' hgen
              obtain ⟨ihg, iht⟩ := ih rest st' hrest r hr
              refine ⟨by rw [ihg, hg]; rfl, fun hc => ?_⟩
              refine iht ?_
              rw [ht]
              dsimp only
              rw [pushEvent_trace, List.append_assoc, List.append_assoc]
              exact cleanTrace_extend _ _ hc rfl
            next st' hgen =>
              obtain ⟨hg, -, -, ht⟩ := generate_err_frame args _ st' _ hgen
              subst hr
              refine ⟨by rw [LoopResult.state, hg]; rfl, fun hc => ?_⟩
              rw [LoopResult.state]
              rcases ht with h | h <;> rw [h] <;> dsimp only <;>
                rw [pushEvent_trace] <;>
                first
                | rw [List.append_assoc]
                  exact cleanTrace_extend _ _ hc rfl
                | rw [List.append_assoc, List.append_assoc]
                  exact cleanTrace_extend _ _ hc rfl
            next st' hgen =>
              obtain ⟨hg, -, -, ht⟩ := generate_err_frame args _ st' _ hgen
              subst hr
              refine ⟨by rw [LoopResult.state, hg]; rfl, fun hc => ?_⟩
              rw [LoopResult.state]
              rcases ht with h | h <;> rw [h] <;> dsimp only <;>
                rw [pushEvent_trace] <;>
                first
                | rw [List.append_assoc]
                  exact cleanTrace_extend _ _ hc rfl
                | rw [List.append_assoc, List.append_assoc]
                  exact cleanTrace_extend _ _ hc rfl
        · split at hr
          · -- a = "s"
            split at hr
            · subst hr
              refine ⟨rfl, fun hc => ?_⟩
              rw [LoopResult.state, pushEvent_trace, pushEvent_trace, List.append_assoc]
              exact cleanTrace_extend _ _ hc rfl
            next b rest' =>
              have hrest' : rest'.length ≤ n := by
                simp only [List.length_cons] at hrest
                omega
              obtain ⟨ihg, iht⟩ := ih rest' _ hrest' r hr
              refine ⟨by rw [ihg]; rfl, fun hc => ?_⟩
              refine iht ?_
              rw [pushEvent_trace, pushEvent_trace, List.append_assoc]
              exact cleanTrace_extend _ _ hc rfl
          · split at hr
            · -- accept
              subst hr
              rw [LoopResult.state, dispatch_lazygit args gr am a _ hlz]
              refine ⟨rfl, fun hc => ?_⟩
              dsimp only
              rw [pushEvent_trace, List.append_assoc]
              exact cleanTrace_extend _ _ hc rfl
            · -- abort
              subst hr
              refine ⟨rfl, fun hc => ?_⟩
              rw [LoopResult.state, pushEvent_trace]
              exact cleanTrace_extend _ _ hc rfl

@[simp] theorem initState_model (env : Env) (git0 : GitState) (h0 : Option String) :
    (initState env git0 h0).model = "" := rfl

@[simp] theorem initState_git (env : Env) (git0 : GitState) (h0 : Option String) :
    (initState env git0 h0).git = git0 := rfl

/-- On every outcome other than an accepted commit, `run` leaves HEAD and the
commit history untouched: staging only touches the index and working tree,
and the loop mutates nothing outside the accept dispatch. -/
theorem runBuilder_frame (args : Args) (env : Env) (git0 : GitState) (h0 : Option String) :
    ∀ r, runBuilder args env git0 h0 = r → (∀ s, r ≠ .ret 0 s) →
      r.state.git.head = git0.head ∧ r.state.git.log = git0.log := by
  intro r hr hne
  rw [runBuilder] at hr
  split at hr
  · subst hr
    exact ⟨rfl, rfl⟩
  · dsimp only at hr
    split at hr
    · split at hr
      · subst hr
        constructor <;> simp [LoopResult.state]
      next sel sels hsel =>
        rw [afterSelect] at hr
        split at hr
        next st' hgen =>
          have hloop := reviewLoop_frame args env.gitRoot env.amendMsg
            env.answers.length env.answers st' (le_refl _) r hr hne
          obtain ⟨hg, -, -, -, -, -⟩ := generate_ok_frame args _ st' hgen
          rw [hloop, hg]
          constructor <;> simp
        next st' hgen =>
          obtain ⟨hg, -, -, -⟩ := generate_err_frame args _ st' _ hgen
          subst hr
          rw [LoopResult.state, hg]
          constructor <;> simp
        next st' hgen =>
          obtain ⟨hg, -, -, -⟩ := generate_err_frame args _ st' _ hgen
          subst hr
          rw [LoopResult.state, hg]
          constructor <;> simp
    next hmodel =>
      exact absurd (by simp) hmodel

/-- In hand-off mode `run` leaves the git state exactly as it found it and
records no git-mutating event. -/
theorem runBuilder_lazygit_frame (args : Args) (env : Env) (git0 : GitState)
    (h0 : Option String) (hlz : args.lazygit = true) :
    ∀ r, runBuilder args env git0 h0 = r →
      r.state.git = git0 ∧ cleanTrace r.state.trace = true := by
  intro r hr
  rw [runBuilder] at hr
  split at hr
  · subst hr
    exact ⟨rfl, rfl⟩
  · rw [stageChanges_lazygit args env _ hlz] at hr
    dsimp only at hr
    split at hr
    · split at hr
      · subst hr
        exact ⟨rfl, rfl⟩
      next sel sels hsel =>
        rw [afterSelect] at hr
        split at hr
        next st' hgen =>
          have hloop := reviewLoop_lazygit_frame args env.gitRoot env.amendMsg hlz
            env.answers.length env.answers st' (le_refl _) r hr
          obtain ⟨hg, -, -, -, -, ht⟩ := generate_ok_frame args _ st' hgen
          refine ⟨by rw [hloop.1, hg]; rfl, ?_⟩
          refine hloop.2 ?_
          rw [ht]
          rfl
        next st' hgen =>
          obtain ⟨hg, -, -, ht⟩ := generate_err_frame args _ st' _ hgen
          subst hr
          refine ⟨by rw [LoopResult.state, hg]; rfl, ?_⟩
          rw [LoopResult.state]
          rcases ht with h | h <;> rw [h] <;> rfl
        next st' hgen =>
          obtain ⟨hg, -, -, ht⟩ := generate_err_frame args _ st' _ hgen
          subst hr
          refine ⟨by rw [LoopResult.state, hg]; rfl, ?_⟩
          rw [LoopResult.state]
          rcases ht with h | h <;> rw [h] <;> rfl
    next hmodel =>
      exact absurd (by simp) hmodel

/-- In hand-off mode the whole invocation leaves the git state exactly as it
found it (in particular no reset), and its trace holds no git-mutating
command. -/
theorem gitAicommit_lazygit_frame (args : Args) (env : Env) (git0 : GitState)
    (h0 : Option String) (hlz : args.lazygit = true) :
    (gitAicommit args env git0 h0).git = git0 ∧
    cleanTrace (gitAicommit args env git0 h0).trace = true := by
  rw [gitAicommit]
  split
  next code st heq =>
    obtain ⟨hg, ht⟩ := runBuilder_lazygit_frame args env git0 h0 hlz _ heq
    rw [if_pos hlz]
    exact ⟨hg, ht⟩
  next st heq =>
    obtain ⟨hg, ht⟩ := runBuilder_lazygit_frame args env git0 h0 hlz _ heq
    rw [if_pos hlz]
    exact ⟨hg, ht⟩
  next st heq =>
    obtain ⟨hg, ht⟩ := runBuilder_lazygit_frame args env git0 h0 hlz _ heq
    exact ⟨hg, ht⟩

/-! ## The claims -/

/-- C1 (counterexample): the claim says that for a non-hand-off abort the
index state after the invocation equals the index state before it.  When the
caller had already staged a change (index differs from HEAD), an aborted
invocation ends with `git reset HEAD`, which sets the index to HEAD — not to
the pre-invocation index. -/
theorem c1_counterexample :
    sampleArgs.lazygit = false ∧
    (gitAicommit sampleArgs sampleEnv stagedGit none).outcome = Outcome.exited 1 ∧
    (gitAicommit sampleArgs sampleEnv stagedGit none).git.index ≠ stagedGit.index := by
  decide

/-- C1 (amended): for every workflow outcome among abort and error, when
hand-off mode is not used, the final index equals the pre-invocation HEAD
(the cleanup runs `git reset HEAD`); this coincides with the pre-invocation
index exactly when nothing was staged before the invocation.  When hand-off
mode is used, the git state — in particular the index — is not reset or
otherwise modified. -/
theorem c1_reset_to_head (args : Args) (env : Env) (git0 : GitState) (h0 : Option String) :
    (args.lazygit = false →
      ((gitAicommit args env git0 h0).outcome = Outcome.exited 1 ∨
        (gitAicommit args env git0 h0).outcome = Outcome.crashed) →
      (gitAicommit args env git0 h0).git.index = git0.head ∧
      (git0.index = git0.head → (gitAicommit args env git0 h0).git.index = git0.index)) ∧
    (args.lazygit = true → (gitAicommit args env git0 h0).git = git0) := by
  constructor
  · intro hlz hout
    suffices h : (gitAicommit args env git0 h0).git.index = git0.head by
      exact ⟨h, fun hih => by rw [h, hih]⟩
    have hnlz : ¬ (args.lazygit = true) := by rw [hlz]; simp
    rw [gitAicommit] at hout ⊢
    split at hout
    next code st heq =>
      rw [if_neg hnlz] at hout ⊢
      dsimp only at hout ⊢
      have hcode : code = 1 := by
        rcases hout with h | h
        · exact Outcome.exited.inj h
        · exact absurd h (by simp)
      have hne : ∀ s, LoopResult.ret code st ≠ LoopResult.ret 0 s := by
        intro s hcon
        rw [hcode] at hcon
        simp at hcon
      have := (runBuilder_frame args env git0 h0 _ heq hne).1
      rw [gitReset]
      exact this
    next st heq =>
      rw [if_neg hnlz] at hout ⊢
      dsimp only at hout ⊢
      have hne : ∀ s, LoopResult.decodeErr st ≠ LoopResult.ret 0 s := by
        intro s hcon
        simp at hcon
      have := (runBuilder_frame args env git0 h0 _ heq hne).1
      rw [gitReset]
      exact this
    next st heq =>
      dsimp only at hout
      rcases hout with h | h <;> exact absurd h (by simp)
  · intro hlz
    exact (gitAicommit_lazygit_frame args env git0 h0 hlz).1

/-- Witness for C1 (amended): on the concrete aborted run of the
counterexample repository the final index equals the pre-invocation HEAD. -/
theorem c1_reset_to_head_witness :
    (gitAicommit sampleArgs sampleEnv stagedGit none).git.index = stagedGit.head :=
  ((c1_reset_to_head sampleArgs sampleEnv stagedGit none).1 rfl
    (Or.inl (by decide))).1

/-- Arguments requesting hand-off (lazygit) mode. -/
def lazyArgs : Args :=
  { interactive := false, model := none, wip := false, lazygit := true, path := [] }

/-- C10: in hand-off mode no git-state-mutating subprocess is ever invoked —
the git state is returned unchanged and the trace holds no mutating command
(so staging is skipped and the diff covers only what the caller staged) —
and the accept-and-amend answer behaves identically to plain accept, because
the amend step sits on the non-hand-off branch of the dispatch. -/
theorem c10_handoff_pure (args : Args) (env : Env) (git0 : GitState) (h0 : Option String)
    (hlz : args.lazygit = true) :
    (gitAicommit args env git0 h0).git = git0 ∧
    cleanTrace (gitAicommit args env git0 h0).trace = true ∧
    ∀ (st : RunState) (rest : List String),
      reviewLoop args env.gitRoot env.amendMsg st ("a" :: rest)
        = reviewLoop args env.gitRoot env.amendMsg st ("y" :: rest) := by
  obtain ⟨hg, ht⟩ := gitAicommit_lazygit_frame args env git0 h0 hlz
  refine ⟨hg, ht, fun st rest => ?_⟩
  rw [reviewLoop, reviewLoop]
  simp only [String.reduceEq, reduceIte, or_true, true_or, or_false, false_or]
  rw [dispatch_lazygit args env.gitRoot env.amendMsg "a" _ hlz,
    dispatch_lazygit args env.gitRoot env.amendMsg "y" _ hlz]

/-- Witness for C10 at a concrete hand-off invocation. -/
theorem c10_handoff_pure_witness :
    (gitAicommit lazyArgs sampleEnv dirtyGit none).git = dirtyGit ∧
    cleanTrace (gitAicommit lazyArgs sampleEnv dirtyGit none).trace = true ∧
    ∀ (st : RunState) (rest : List String),
      reviewLoop lazyArgs sampleEnv.gitRoot sampleEnv.amendMsg st ("a" :: rest)
        = reviewLoop lazyArgs sampleEnv.gitRoot sampleEnv.amendMsg st ("y" :: rest) :=
  c10_handoff_pure lazyArgs sampleEnv dirtyGit none rfl

/-- Arguments with the work-in-progress flag set. -/
def wipArgs : Args :=
  { interactive := false, model := none, wip := true, lazygit := false, path := [] }

/-- A review-loop state about to consume one well-formed response. -/
def genSt : RunState :=
  { git := dirtyGit, handoff := none, model := "m1", prompt := "p", message := ""
    responses := [goodContent "x" "d"], selections := [], trace := [] }

/-- The message produced by one generation attempt, when it succeeds. -/
def generatedMessage (args : Args) (st : RunState) : Option String :=
  match generateCommitMessage args st with
  | .ok r => some r.message
  | .error _ => none

/-- C2 (counterexample): the claim says the message produced by the
generator carries no WIP marker and no attribution footer, those being
applied only at acceptance time.  In the code `generateCommitMessage`
itself applies both: the message it stores — the one previewed in the
review loop before any acceptance — already starts with the WIP marker and
contains the attribution footer. -/
theorem c2_counterexample :
    generatedMessage wipArgs genSt
      = some "WIP: x\n\nd\n\nCommit message by m1\n[skip ci]" ∧
    strContains "WIP: x\n\nd\n\nCommit message by m1\n[skip ci]" "Commit message by " = true ∧
    occursAtFront "WIP: ".data "WIP: x\n\nd\n\nCommit message by m1\n[skip ci]".data = true := by
  decide

/-- C2 (amended): on every successful generation the Message Generator
itself composes the full message — WIP marker and CI-skip suffix when the
WIP flag is set, and the attribution footer always — so every preview shown
in Reviewing already carries them; the Commit Dispatcher applies no further
transformation, committing or handing off the stored message verbatim. -/
theorem c2_footer_at_generation (args : Args) (st : RunState) (c : Content)
    (cs : List Content) (cm : CommitMessage)
    (hresp : st.responses = c :: cs) (hdec : decodeContent c = .ok cm) :
    generateCommitMessage args st = .ok { st with
      responses := cs
      trace := st.trace ++ [Event.modelChat st.model st.prompt]
      message :=
        if args.wip then
          ("WIP: " ++ cm.commitTitle) ++ "\n\n" ++ cm.commitDescription ++
            "\n\nCommit message by " ++ st.model ++ "\n[skip ci]"
        else
          cm.commitTitle ++ "\n\n" ++ cm.commitDescription ++
            "\n\nCommit message by " ++ st.model } ∧
    (∀ gr am answer s, (dispatch args gr am answer s).message = s.message) ∧
    (args.lazygit = true →
      ∀ gr am answer s, (dispatch args gr am answer s).handoff = some s.message) ∧
    (args.lazygit = false →
      ∀ gr am answer s, Event.cmdCommit s.message ∈ (dispatch args gr am answer s).trace) := by
  refine ⟨?_, fun gr am answer s => ?_, fun hlz gr am answer s => ?_,
    fun hlz gr am answer s => ?_⟩
  · unfold generateCommitMessage
    rw [hresp]
    dsimp only
    rw [hdec]
    cases hw : args.wip <;> simp [hw]
  · unfold dispatch
    split
    · rfl
    · dsimp only
      split <;> rfl
  · rw [dispatch_lazygit args gr am answer s hlz]
  · unfold dispatch
    rw [hlz]
    simp only [Bool.false_eq_true, if_false]
    split <;> simp

/-- Witness for C2 (amended): at a concrete WIP-flagged generation the
stored message is the fully composed one, and the dispatch passes the stored
message through unchanged. -/
theorem c2_footer_at_generation_witness :
    generatedMessage wipArgs genSt
      = some "WIP: x\n\nd\n\nCommit message by m1\n[skip ci]" ∧
    (dispatch wipArgs "/repo" "amended" "y" genSt).message = genSt.message := by
  have h := c2_footer_at_generation wipArgs genSt (goodContent "x" "d") []
    ⟨"x", "d"⟩ rfl rfl
  refine ⟨?_, h.2.1 "/repo" "amended" "y" genSt⟩
  rw [generatedMessage, h.1]
  rfl

/-- A clean status fixes the index to HEAD, so `git reset HEAD` is the
identity there. -/
theorem gitReset_of_clean (g : GitState) (h : statusClean g = true) :
    gitReset g = g := by
  obtain ⟨hd, lg, ix, wt, ut⟩ := g
  simp only [statusClean, Bool.and_eq_true, beq_iff_eq] at h
  rw [gitReset]
  simp only [GitState.mk.injEq, and_true, true_and]
  exact h.1.1.symm

@[simp] theorem initState_selections (env : Env) (git0 : GitState) (h0 : Option String) :
    (initState env git0 h0).selections = env.selections := rfl

@[simp] theorem initState_responses (env : Env) (git0 : GitState) (h0 : Option String) :
    (initState env git0 h0).responses = env.responses := rfl

@[simp] theorem initState_handoff (env : Env) (git0 : GitState) (h0 : Option String) :
    (initState env git0 h0).handoff = h0 := rfl

/-- C6: if the status check reports no pending changes, the workflow exits
with status 1, performs no side effect (git state and hand-off file are
unchanged — the cleanup reset is the identity on a clean repository), and
the trace holds no staging command and no model call. -/
theorem c6_no_changes (args : Args) (env : Env) (git0 : GitState) (h0 : Option String)
    (hclean : statusClean git0 = true) :
    (gitAicommit args env git0 h0).outcome = Outcome.exited 1 ∧
    (gitAicommit args env git0 h0).git = git0 ∧
    (gitAicommit args env git0 h0).handoff = h0 ∧
    ((gitAicommit args env git0 h0).trace).all
      (fun e => !(e.isStagingCmd || e.isModelCall)) = true := by
  rw [gitAicommit, runBuilder, if_pos hclean]
  dsimp only
  cases hl : args.lazygit
  · rw [if_neg (by simp)]
    refine ⟨rfl, ?_, rfl, rfl⟩
    dsimp only [initState_git]
    exact gitReset_of_clean git0 hclean
  · rw [if_pos rfl]
    exact ⟨rfl, rfl, rfl, rfl⟩

/-- Witness for C6 on a concrete clean repository. -/
theorem c6_no_changes_witness :
    (gitAicommit sampleArgs sampleEnv quietGit none).outcome = Outcome.exited 1 ∧
    (gitAicommit sampleArgs sampleEnv quietGit none).git = quietGit ∧
    (gitAicommit sampleArgs sampleEnv quietGit none).handoff = none ∧
    ((gitAicommit sampleArgs sampleEnv quietGit none).trace).all
      (fun e => !(e.isStagingCmd || e.isModelCall)) = true :=
  c6_no_changes sampleArgs sampleEnv quietGit none (by decide)

@[simp] theorem decode_goodContent (t d : String) :
    decodeContent (goodContent t d) = .ok { commitTitle := t, commitDescription := d } := rfl

@[simp] theorem selectModelResult_eq (args : Args) (choice : String) :
    selectModelResult args choice = choice := rfl

/-- C5: for an accepted message with title `t` and description `d` (WIP flag
unset) the composed commit body is the title, a blank line, the description,
a blank line, and the attribution footer embedding the model identifier, and
the commit is created with that exact multi-line body at the head of the
history. -/
theorem c5_exact_body (args : Args) (env : Env) (git0 : GitState) (h0 : Option String)
    (t d m : String)
    (hwip : args.wip = false) (hlz : args.lazygit = false)
    (hdirty : statusClean git0 = false)
    (hresp : env.responses = [goodContent t d])
    (hsel : env.selections = [m]) (hans : env.answers = ["y"]) :
    (gitAicommit args env git0 h0).outcome = Outcome.exited 0 ∧
    (gitAicommit args env git0 h0).git.log
      = (t ++ "\n\n" ++ d ++ "\n\nCommit message by " ++ m) :: git0.log := by
  obtain ⟨it, mo, wi, lz, pa⟩ := args
  dsimp only at hwip hlz
  subst hwip
  subst hlz
  rw [gitAicommit, runBuilder, if_neg (by simp [hdirty])]
  simp only [afterSelect, generateCommitMessage, reviewLoop, dispatch,
    setPromptStep_model, stageChanges_model, initState_model,
    setPromptStep_selections, stageChanges_selections, initState_selections,
    setPromptStep_responses, stageChanges_responses, initState_responses,
    setPromptStep_git, stageChanges_log, initState_git,
    pushEvent_git, pushEvent_model, pushEvent_responses, pushEvent_selections,
    hsel, hresp, hans, decode_goodContent, selectModelResult_eq,
    String.reduceEq, reduceIte, or_true, true_or, or_false, false_or,
    Bool.false_eq_true, if_false, if_true, gitCommit, gitReset]
  trivial

/-- An environment accepting immediately with the scenario response
`commitTitle "Add foo"`, `commitDescription ""`. -/
def acceptEnv : Env :=
  { gitRoot := "/repo", selections := ["m1"], responses := [goodContent "Add foo" ""]
    answers := ["y"], interactiveIndex := [], amendMsg := "amended" }

/-- Witness for C5: with title `"Add foo"` and empty description the commit
is created with the exact body `"Add foo\n\n\n\nCommit message by m1"` (the
empty description line preserved). -/
theorem c5_exact_body_witness :
    (gitAicommit sampleArgs acceptEnv dirtyGit none).outcome = Outcome.exited 0 ∧
    (gitAicommit sampleArgs acceptEnv dirtyGit none).git.log
      = ["Add foo\n\n\n\nCommit message by m1"] := by
  have h := c5_exact_body sampleArgs acceptEnv dirtyGit none "Add foo" "" "m1"
    rfl rfl (by decide) rfl rfl rfl
  refine ⟨h.1, ?_⟩
  rw [h.2]
  rfl

/-- C7: when hand-off mode is requested and the message is accepted (with
either accept answer), the composed message is written to the pending-commit
file inside the git metadata directory — overwriting whatever content the
file had (`h0` is arbitrary) — no commit is created and no index reset is
performed (the git state is returned untouched). -/
theorem c7_handoff_write (args : Args) (env : Env) (git0 : GitState) (h0 : Option String)
    (t d m a : String)
    (hlz : args.lazygit = true) (hwip : args.wip = false)
    (hdirty : statusClean git0 = false)
    (hresp : env.responses = [goodContent t d]) (hsel : env.selections = [m])
    (hans : env.answers = [a]) (ha : a = "y" ∨ a = "a") :
    (gitAicommit args env git0 h0).outcome = Outcome.exited 0 ∧
    (gitAicommit args env git0 h0).handoff
      = some (t ++ "\n\n" ++ d ++ "\n\nCommit message by " ++ m) ∧
    Event.writeHandoff (handoffPath env.gitRoot)
        (t ++ "\n\n" ++ d ++ "\n\nCommit message by " ++ m)
      ∈ (gitAicommit args env git0 h0).trace ∧
    (gitAicommit args env git0 h0).git = git0 ∧
    handoffPath env.gitRoot = env.gitRoot ++ "/.git/LAZYGIT_PENDING_COMMIT" := by
  obtain ⟨it, mo, wi, lz, pa⟩ := args
  dsimp only at hwip hlz
  subst hwip
  subst hlz
  rcases ha with ha | ha <;>
  · subst ha
    rw [gitAicommit, runBuilder, if_neg (by simp [hdirty])]
    simp only [afterSelect, generateCommitMessage, reviewLoop, dispatch,
      stageChanges_lazygit,
      setPromptStep_model, initState_model,
      setPromptStep_selections, initState_selections,
      setPromptStep_responses, initState_responses,
      setPromptStep_git, initState_git, initState_handoff,
      pushEvent_git, pushEvent_model, pushEvent_responses, pushEvent_selections,
      hsel, hresp, hans, decode_goodContent, selectModelResult_eq,
      String.reduceEq, reduceIte, or_true, true_or, or_false, false_or,
      Bool.false_eq_true, if_false, if_true]
    simp [handoffPath]

/-- A hand-off environment whose user answers accept-and-amend. -/
def handoffEnv : Env :=
  { gitRoot := "/repo", selections := ["m1"], responses := [goodContent "t" "d"]
    answers := ["a"], interactiveIndex := [], amendMsg := "amended" }

/-- Witness for C7 at a concrete hand-off invocation with pre-existing file
content (overwritten) and the accept-and-amend answer. -/
theorem c7_handoff_write_witness :
    (gitAicommit lazyArgs handoffEnv dirtyGit (some "old")).outcome = Outcome.exited 0 ∧
    (gitAicommit lazyArgs handoffEnv dirtyGit (some "old")).handoff
      = some ("t" ++ "\n\n" ++ "d" ++ "\n\nCommit message by " ++ "m1") ∧
    Event.writeHandoff (handoffPath handoffEnv.gitRoot)
        ("t" ++ "\n\n" ++ "d" ++ "\n\nCommit message by " ++ "m1")
      ∈ (gitAicommit lazyArgs handoffEnv dirtyGit (some "old")).trace ∧
    (gitAicommit lazyArgs handoffEnv dirtyGit (some "old")).git = dirtyGit ∧
    handoffPath handoffEnv.gitRoot
      = handoffEnv.gitRoot ++ "/.git/LAZYGIT_PENDING_COMMIT" :=
  c7_handoff_write lazyArgs handoffEnv dirtyGit (some "old") "t" "d" "m1" "a"
    rfl rfl (by decide) rfl rfl rfl (Or.inr rfl)

/-- The dispatch appends its own events after the incoming trace. -/
theorem dispatch_trace_mono (args : Args) (gr am a : String) (st : RunState) :
    ∃ ext, (dispatch args gr am a st).trace = st.trace ++ ext := by
  unfold dispatch
  split
  · exact ⟨_, rfl⟩
  · dsimp only
    split
    · refine ⟨[Event.cmdCommit st.message, Event.cmdAmend], ?_⟩
      simp
    · exact ⟨_, rfl⟩

/-- The review loop only ever appends to the trace. -/
theorem reviewLoop_trace_mono (args : Args) (gr am : String) :
    ∀ n (answers : List String) (st : RunState), answers.length ≤ n →
      ∃ ext, (reviewLoop args gr am st answers).state.trace = st.trace ++ ext := by
  intro n
  induction n with
  | zero =>
    intro answers st hlen
    have hnil : answers = [] := List.eq_nil_of_length_eq_zero (Nat.le_zero.mp hlen)
    subst hnil
    rw [reviewLoop]
    exact ⟨[], by simp [LoopResult.state]⟩
  | succ n ih =>
    intro answers st hlen
    match answers with
    | [] =>
      rw [reviewLoop]
      exact ⟨[], by simp [LoopResult.state]⟩
    | a :: rest =>
      have hrest : rest.length ≤ n := by
        simpa [Nat.succ_le_succ_iff] using hlen
      rw [reviewLoop]
      split
      · -- a = "r"
        split
        next st' hgen =>
          obtain ⟨ext, hext⟩ := ih rest st' hrest
          obtain ⟨-, -, -, -, -, ht⟩ := generate_ok_frame args _ st' hgen
          exact ⟨_, by rw [hext, ht, pushEvent_trace]; simp only [List.append_assoc]; rfl⟩
        next st' hgen =>
          obtain ⟨-, -, -, ht⟩ := generate_err_frame args _ st' _ hgen
          rcases ht with h | h <;>
            exact ⟨_, by (rw [LoopResult.state, h, pushEvent_trace]; try (simp only [List.append_assoc]); try rfl)⟩
        next st' hgen =>
          obtain ⟨-, -, -, ht⟩ := generate_err_frame args _ st' _ hgen
          rcases ht with h | h <;>
            exact ⟨_, by (rw [LoopResult.state, h, pushEvent_trace]; try (simp only [List.append_assoc]); try rfl)⟩
      · split
        · -- a = "m"
          split
          · exact ⟨_, by (rw [LoopResult.state, pushEvent_trace, pushEvent_trace]; try (simp only [List.append_assoc]); try rfl)⟩
          · dsimp only
            split
            next st' hgen =>
              obtain ⟨ext, hext⟩ := ih rest st' hrest
              obtain ⟨-, -, -, -, -, ht⟩ := generate_ok_frame args _ st' hgen
              exact ⟨_, by (rw [hext, ht]; dsimp only; rw [pushEvent_trace]; try (simp only [List.append_assoc]); try rfl)⟩
            next st' hgen =>
              obtain ⟨-, -, -, ht⟩ := generate_err_frame args _ st' _ hgen
              rcases ht with h | h <;>
                exact ⟨_, by (rw [LoopResult.state, h]; dsimp only; rw [pushEvent_trace]; try (simp only [List.append_assoc]); try rfl)⟩
            next st' hgen =>
              obtain ⟨-, -, -, ht⟩ := generate_err_frame args _ st' _ hgen
              rcases ht with h | h <;>
                exact ⟨_, by (rw [LoopResult.state, h]; dsimp only; rw [pushEvent_trace]; try (simp only [List.append_assoc]); try rfl)⟩
        · split
          · -- a = "s"
            split
            · exact ⟨_, by (rw [LoopResult.state, pushEvent_trace, pushEvent_trace]; try (simp only [List.append_assoc]); try rfl)⟩
            next b rest' =>
              have hrest2 : rest'.length ≤ n := by
                simp only [List.length_cons] at hrest
                omega
              obtain ⟨ext, hext⟩ := ih rest' _ hrest2
              exact ⟨_, by (rw [hext, pushEvent_trace, pushEvent_trace]; try (simp only [List.append_assoc]); try rfl)⟩
          · split
            · -- accept
              obtain ⟨ext, hext⟩ :=
                dispatch_trace_mono args gr am a (pushEvent st .promptExpand)
              exact ⟨_, by (rw [LoopResult.state, hext, pushEvent_trace]; try (simp only [List.append_assoc]); try rfl)⟩
            · -- abort
              exact ⟨_, rfl⟩

/-- A trace free of chat events trivially shows no generation before the
selection prompt. -/
theorem psbc_of_nonchat (t : List Event) (h : t.all (fun e => !e.isChat) = true) :
    promptShownBeforeChat t = true := by
  induction t with
  | nil => rfl
  | cons e rest ih =>
    simp only [List.all_cons, Bool.and_eq_true] at h
    cases e <;> first
      | rfl
      | exact ih h.2
      | simpa [Event.isChat] using h.1

/-- Once a selection prompt follows a chat-free prefix, the whole trace
satisfies the prompt-before-chat property, whatever comes later. -/
theorem psbc_select_prefix (t1 t2 : List Event)
    (h : t1.all (fun e => !e.isChat) = true) :
    promptShownBeforeChat (t1 ++ Event.promptSelect :: t2) = true := by
  induction t1 with
  | nil => rfl
  | cons e rest ih =>
    simp only [List.all_cons, Bool.and_eq_true] at h
    rw [List.cons_append]
    cases e <;> first
      | rfl
      | exact ih h.2
      | simpa [Event.isChat] using h.1

/-- In every run the model-selection prompt precedes the first generation
call: whatever chat-free suffix the caller appends afterwards, the trace
satisfies the prompt-before-chat property. -/
theorem runBuilder_psbc (args : Args) (env : Env) (git0 : GitState) (h0 : Option String) :
    ∀ r, runBuilder args env git0 h0 = r →
      ∀ t3, t3.all (fun e => !e.isChat) = true →
        promptShownBeforeChat (r.state.trace ++ t3) = true := by
  obtain ⟨it, mo, wi, lz, pa⟩ := args
  cases it <;> cases lz <;>
  · intro r hr t3 ht3
    rw [runBuilder] at hr
    split at hr
    · subst hr
      refine psbc_of_nonchat _ ?_
      simp only [LoopResult.state, List.all_append, ht3]
      rfl
    · dsimp only at hr
      split at hr
      · split at hr
        · subst hr
          refine psbc_of_nonchat _ ?_
          simp only [LoopResult.state, List.all_append, ht3]
          rfl
        next sel sels hsel =>
          rw [afterSelect] at hr
          split at hr
          next st' hgen =>
            obtain ⟨ext, hext⟩ := reviewLoop_trace_mono _ env.gitRoot env.amendMsg
              env.answers.length env.answers st' (le_refl _)
            rw [hr] at hext
            obtain ⟨-, -, -, -, -, ht⟩ := generate_ok_frame _ _ st' hgen
            rw [hext, ht]
            simp only [setPromptStep, stageChanges, initState, List.append_assoc,
              List.cons_append, List.nil_append]
            simp [promptShownBeforeChat]
          next st' hgen =>
            obtain ⟨-, -, -, ht⟩ := generate_err_frame _ _ st' _ hgen
            subst hr
            rw [LoopResult.state]
            rcases ht with h | h <;>
              · rw [h]
                simp only [setPromptStep, stageChanges, initState, List.append_assoc,
                  List.cons_append, List.nil_append]
                simp [promptShownBeforeChat]
          next st' hgen =>
            obtain ⟨-, -, -, ht⟩ := generate_err_frame _ _ st' _ hgen
            subst hr
            rw [LoopResult.state]
            rcases ht with h | h <;>
              · rw [h]
                simp only [setPromptStep, stageChanges, initState, List.append_assoc,
                  List.cons_append, List.nil_append]
                simp [promptShownBeforeChat]
      next hmodel =>
        exact absurd (by simp) hmodel

/-- Across the whole invocation the model-selection prompt precedes the
first generation call (the final reset, when it runs, is not a chat). -/
theorem gitAicommit_psbc (args : Args) (env : Env) (git0 : GitState) (h0 : Option String) :
    promptShownBeforeChat (gitAicommit args env git0 h0).trace = true := by
  rw [gitAicommit]
  split
  next code st heq =>
    have h := runBuilder_psbc args env git0 h0 _ heq
    cases args.lazygit
    · simp only [Bool.false_eq_true, if_false]
      exact h [Event.cmdReset] rfl
    · simp only [reduceIte]
      simpa using h [] rfl
  next st heq =>
    have h := runBuilder_psbc args env git0 h0 _ heq
    cases args.lazygit
    · simp only [Bool.false_eq_true, if_false]
      exact h [Event.cmdReset] rfl
    · simp only [reduceIte]
      simpa using h [] rfl
  next st heq =>
    have h := runBuilder_psbc args env git0 h0 _ heq
    simpa using h [] rfl

/-- C9: the interactive model selection prompt is always shown before the
first generation in every invocation; when `--model` supplies an identifier
it only serves as the default choice of that prompt and is never consumed
directly — the model actually used by the generations and the committed
footer is the interactive choice. -/
theorem c9_select_always (args : Args) (env : Env) (git0 : GitState) (h0 : Option String)
    (mid sel t d : String)
    (hm : args.model = some mid) (hlz : args.lazygit = false) (hwip : args.wip = false)
    (hdirty : statusClean git0 = false)
    (hsel : env.selections = [sel]) (hresp : env.responses = [goodContent t d])
    (hans : env.answers = ["y"]) :
    (∀ (a2 : Args) (e2 : Env) (g2 : GitState) (o2 : Option String),
      promptShownBeforeChat (gitAicommit a2 e2 g2 o2).trace = true) ∧
    (∃ p, Event.modelChat sel p ∈ (gitAicommit args env git0 h0).trace) ∧
    (mid ≠ sel → ∀ p, Event.modelChat mid p ∉ (gitAicommit args env git0 h0).trace) ∧
    (gitAicommit args env git0 h0).git.log
      = (t ++ "\n\n" ++ d ++ "\n\nCommit message by " ++ sel) :: git0.log := by
  refine ⟨fun a2 e2 g2 o2 => gitAicommit_psbc a2 e2 g2 o2, ?_⟩
  obtain ⟨it, mo, wi, lz, pa⟩ := args
  dsimp only at hwip hlz hm
  subst hwip
  subst hlz
  subst hm
  cases it <;>
  · rw [gitAicommit, runBuilder, if_neg (by simp [hdirty])]
    simp only [afterSelect, generateCommitMessage, reviewLoop, dispatch,
      stageChanges, setPromptStep, initState, pushEvent,
      hsel, hresp, hans, decode_goodContent, selectModelResult_eq,
      String.reduceEq, reduceIte, or_true, true_or, or_false, false_or,
      Bool.false_eq_true, Bool.not_false, Bool.not_true, if_false, if_true,
      gitCommit, gitReset]
    refine ⟨?_, ?_, ?_⟩
    · exact ⟨_, by simp; rfl⟩
    · intro hne p hmem
      simp at hmem
      exact hne hmem.1
    · rfl

/-- Arguments with an explicitly supplied `--model` identifier. -/
def modelArgs : Args :=
  { interactive := false, model := some "supplied", wip := false, lazygit := false, path := [] }

/-- Witness for C9: with `--model supplied` but interactive choice `m1`, the
selection prompt precedes the first generation, all generations use `m1`,
none uses `supplied`, and the committed footer names `m1`. -/
theorem c9_select_always_witness :
    (∀ (a2 : Args) (e2 : Env) (g2 : GitState) (o2 : Option String),
      promptShownBeforeChat (gitAicommit a2 e2 g2 o2).trace = true) ∧
    (∃ p, Event.modelChat "m1" p ∈ (gitAicommit modelArgs acceptEnv dirtyGit none).trace) ∧
    ("supplied" ≠ "m1" →
      ∀ p, Event.modelChat "supplied" p ∉ (gitAicommit modelArgs acceptEnv dirtyGit none).trace) ∧
    (gitAicommit modelArgs acceptEnv dirtyGit none).git.log
      = ("Add foo" ++ "\n\n" ++ "" ++ "\n\nCommit message by " ++ "m1") :: dirtyGit.log :=
  c9_select_always modelArgs acceptEnv dirtyGit none "supplied" "m1" "Add foo" ""
    rfl rfl rfl (by decide) rfl rfl rfl

/-- C8: at any pass through the review prompt, the retry answer regenerates
without clearing or changing the selected model, and the switch-model answer
triggers exactly one new generation call before the loop re-enters the next
review prompt (the trace gains exactly one chat event, and the model becomes
the new interactive choice). -/
theorem c8_review_invariants (args : Args) (gr am : String) (st : RunState)
    (rest : List String) (c : Content) (cs : List Content) (cm : CommitMessage)
    (hresp : st.responses = c :: cs) (hdec : decodeContent c = .ok cm) :
    (∃ st', reviewLoop args gr am st ("r" :: rest) = reviewLoop args gr am st' rest ∧
      st'.model = st.model ∧ chatCount st'.trace = chatCount st.trace + 1) ∧
    (∀ sel sels, st.selections = sel :: sels →
      ∃ st', reviewLoop args gr am st ("m" :: rest) = reviewLoop args gr am st' rest ∧
        st'.model = sel ∧ chatCount st'.trace = chatCount st.trace + 1) := by
  constructor
  · rw [reviewLoop]
    simp only [generateCommitMessage, pushEvent_responses, pushEvent_model, hresp, hdec,
      String.reduceEq, reduceIte, if_true, if_false]
    refine ⟨_, rfl, rfl, ?_⟩
    simp [chatCount, List.countP_append, List.countP_cons, Event.isChat, pushEvent]
  · intro sel sels hselections
    rw [reviewLoop]
    simp only [generateCommitMessage, pushEvent_responses, pushEvent_model,
      pushEvent_selections, hresp, hdec, hselections,
      String.reduceEq, reduceIte, if_true, if_false]
    refine ⟨_, rfl, rfl, ?_⟩
    simp [chatCount, List.countP_append, List.countP_cons, Event.isChat, pushEvent]

/-- A loop state holding one pending response and one pending selection. -/
def c8St : RunState :=
  { git := dirtyGit, handoff := none, model := "m1", prompt := "p", message := ""
    responses := [goodContent "t" "d"], selections := ["m2"], trace := [] }

/-- Witness for C8 at a concrete review-loop state. -/
theorem c8_review_invariants_witness :
    (∃ st', reviewLoop sampleArgs "/repo" "amended" c8St ("r" :: ["y"])
        = reviewLoop sampleArgs "/repo" "amended" st' ["y"] ∧
      st'.model = c8St.model ∧ chatCount st'.trace = chatCount c8St.trace + 1) ∧
    (∀ sel sels, c8St.selections = sel :: sels →
      ∃ st', reviewLoop sampleArgs "/repo" "amended" c8St ("m" :: ["y"])
          = reviewLoop sampleArgs "/repo" "amended" st' ["y"] ∧
        st'.model = sel ∧ chatCount st'.trace = chatCount c8St.trace + 1) :=
  c8_review_invariants sampleArgs "/repo" "amended" c8St ["y"] (goodContent "t" "d") []
    { commitTitle := "t", commitDescription := "d" } rfl rfl

/-- A JSON value missing a required string field never validates. -/
theorem parse_fail (j : Json) (h : hasBothStringFields j = false) :
    parseCommitMessage j = .error .schema := by
  cases j with
  | obj fields =>
    simp only [parseCommitMessage]
    split
    next t d hT hD =>
      rw [hasBothStringFields] at h
      rw [hT, hD] at h
      simp at h
    next => rfl
  | null => rfl
  | bool b => rfl
  | num n => rfl
  | str s2 => rfl
  | arr xs => rfl

/-- A response whose content is invalid JSON, or whose JSON omits or mistypes
a required string field, always decodes to an error and never to a (possibly
partial) CommitMessage. -/
theorem decode_fail (c : Content)
    (hbad : c = .invalid ∨ ∃ j, c = .json j ∧ hasBothStringFields j = false) :
    (∀ cm, decodeContent c ≠ .ok cm) ∧ ∃ e, decodeContent c = .error e := by
  rcases hbad with h | ⟨j, hj, hb⟩
  · subst h
    exact ⟨fun cm => by simp [decodeContent], ⟨_, rfl⟩⟩
  · subst hj
    have hp : decodeContent (.json j) = .error .schema := parse_fail j hb
    exact ⟨fun cm hcon => by rw [hp] at hcon; exact Except.noConfusion hcon, ⟨_, hp⟩⟩

/-- C4: a model response whose content is not valid structured data, or that
omits (or mistypes) a required string field, never decodes to a
partially-populated CommitMessage; the invocation crashes with exit status 1
and the index reset still runs on that exit path (the reset is the last
recorded command, leaving the index equal to HEAD). -/
theorem c4_decode_error (args : Args) (env : Env) (git0 : GitState) (h0 : Option String)
    (c : Content) (cs : List Content)
    (hlz : args.lazygit = false) (hdirty : statusClean git0 = false)
    (hsel : env.selections ≠ []) (hresp : env.responses = c :: cs)
    (hbad : c = .invalid ∨ ∃ j, c = .json j ∧ hasBothStringFields j = false) :
    (∀ cm, decodeContent c ≠ .ok cm) ∧
    (gitAicommit args env git0 h0).outcome = Outcome.crashed ∧
    Outcome.exitStatus (gitAicommit args env git0 h0).outcome = some 1 ∧
    (gitAicommit args env git0 h0).git.index = (gitAicommit args env git0 h0).git.head ∧
    (gitAicommit args env git0 h0).trace.getLast? = some Event.cmdReset := by
  obtain ⟨sel, sels, hsel2⟩ := List.exists_cons_of_ne_nil hsel
  obtain ⟨hne, e, herr⟩ := decode_fail c hbad
  obtain ⟨it, mo, wi, lz, pa⟩ := args
  dsimp only at hlz
  subst hlz
  refine ⟨hne, ?_⟩
  rw [gitAicommit, runBuilder, if_neg (by simp [hdirty])]
  simp only [afterSelect, generateCommitMessage,
    setPromptStep_model, stageChanges_model, initState_model,
    setPromptStep_selections, stageChanges_selections, initState_selections,
    setPromptStep_responses, stageChanges_responses, initState_responses,
    hsel2, hresp, herr,
    String.reduceEq, reduceIte, if_true, if_false]
  refine ⟨rfl, rfl, ?_, ?_⟩
  · rfl
  · simp [List.getLast?_concat]

/-- The scenario response that omits the required description field. -/
def missingDesc : Content := .json (.obj [("commitTitle", .str "x")])

/-- An environment whose model returns the field-omitting response. -/
def badEnv : Env := { sampleEnv with responses := [missingDesc] }

/-- Witness for C4 at the scenario response lacking `commitDescription`. -/
theorem c4_decode_error_witness :
    (∀ cm, decodeContent missingDesc ≠ .ok cm) ∧
    (gitAicommit sampleArgs badEnv dirtyGit none).outcome = Outcome.crashed ∧
    Outcome.exitStatus (gitAicommit sampleArgs badEnv dirtyGit none).outcome = some 1 ∧
    (gitAicommit sampleArgs badEnv dirtyGit none).git.index
      = (gitAicommit sampleArgs badEnv dirtyGit none).git.head ∧
    (gitAicommit sampleArgs badEnv dirtyGit none).trace.getLast? = some Event.cmdReset :=
  c4_decode_error sampleArgs badEnv dirtyGit none missingDesc [] rfl (by decide)
    (by decide) rfl (Or.inr ⟨_, rfl, by decide⟩)

/-- The refine interaction of the C3 scenario: the user answers `e`, types
`mention the author`, and then accepts. -/
def refineEnv : Env :=
  { gitRoot := "/repo", selections := []
    responses := [goodContent "t" "d", goodContent "t2" "d2"]
    answers := ["e", "mention the author", "y"], interactiveIndex := []
    amendMsg := "amended" }

/-- The default arguments of the earlier variant. -/
def legacyArgs : legacy.Args :=
  { interactive := false, model := "mistral:latest", wip := false, lazygit := false
    path := [] }

/-- C3 (evaluation at the failing input): in the only variant implementing
the edit/refine action, entering the refinement `mention the author` and
regenerating leaves both chat prompts equal to the one built before the loop
from the empty refinement — the refinement text is stored in the `refine`
variable but the prompt is never rebuilt, so no generation call ever sees
it, although the rebuilt prompt would have contained it verbatim. -/
theorem c3_refine_never_reaches_prompt :
    (legacy.main legacyArgs refineEnv dirtyGit none).exitCode = some 0 ∧
    (legacy.main legacyArgs refineEnv dirtyGit none).state.refine = "mention the author" ∧
    (legacy.main legacyArgs refineEnv dirtyGit none).state.chatPrompts
      = [legacy.promptOf "" (diffCached (gitAddAll (gitIntentToAdd dirtyGit))),
         legacy.promptOf "" (diffCached (gitAddAll (gitIntentToAdd dirtyGit)))] ∧
    ((legacy.main legacyArgs refineEnv dirtyGit none).state.chatPrompts.all
      (fun p => !(strContains p "mention the author"))) = true ∧
    strContains
      (legacy.promptOf "mention the author" (diffCached (gitAddAll (gitIntentToAdd dirtyGit))))
      "mention the author" = true := by
  set_option maxRecDepth 4096 in decide

end GitAicommit
